import Mathlib

/-!
Verification of the window-list reconciliation engine of the dock applications
plugin (`src/lib.rs`).  The definitions below are a shallow embedding of the
Rust source: the poller cycle (`Apps::spawn_zbus`), the diff / materiality
check, the grouping fold, the favorites merge and publish steps, and the
favorite-toggle handler of `Apps::on_plugin_load`.  Data types whose defining
module is not part of the sources (`utils::Item`, `utils::Event`,
`dock_object::DockObject`) are modelled from the specification, restricted to
the fields the visible code exercises.
-/

namespace DockApps

/-- Modelled from the spec: a WindowRecord `{ id, title, description }`
(section 3).  The corresponding Rust struct `utils::Item` is not among the
sources; the fields used by `lib.rs` are `name` (the window title, compared by
the diff and used as the sort key) and `description` (the owning-application
key used by the grouping fold and the merge), plus the opaque window id. -/
structure Item where
  id : Nat
  name : String
  description : String
deriving DecidableEq, Repr

/-- Modelled from the spec: the Event tagged union (section 3) — the Rust enum
`utils::Event` is not among the sources.  Constructors mirror the variants
matched in `Apps::on_plugin_load`: `Activate`, `Close`, `Favorite`,
`RefreshFromCache`, `WindowList`. -/
inductive Event
  | activate (id : Nat)
  | close (id : Nat)
  | favorite (name : String) (shouldFavorite : Bool)
  | refreshFromCache
  | windowList
deriving DecidableEq, Repr

/-- A transport-layer failure of a zbus remote call (`zbus::Error`), kept
opaque: the code only ever branches on success versus failure. -/
inductive TransportError
  | transport
deriving DecidableEq, Repr

/-- A failure of `Message::body::<Vec<Item>>()` deserialization, kept opaque. -/
inductive BodyError
  | malformed
deriving DecidableEq, Repr

/-- Lexicographic comparison of character sequences by code point; total
strict order used to model the byte-lexicographic `Ord` that Rust strings use
in `sort_by` and in the `BTreeMap` of the grouping fold. -/
def strLt : List Char → List Char → Bool
  | [], [] => false
  | [], _ :: _ => true
  | _ :: _, [] => false
  | a :: as, b :: bs =>
    if a.toNat < b.toNat then true
    else if a.toNat = b.toNat then strLt as bs
    else false

/-- Strict order on strings modelling Rust's `String: Ord`. -/
def descLt (a b : String) : Bool := strLt a.data b.data

/-- Non-strict comparison of items by window title, the comparator of
`reply.sort_by(|a, b| a.name.cmp(&b.name))`. -/
def nameLe (a b : Item) : Bool := !(descLt b.name a.name)

/-- Insert an item into a list sorted by title, before the first strictly
greater element (hence after equal titles: the stable placement). -/
def insertSorted (a : Item) : List Item → List Item
  | [] => [a]
  | b :: bs => if nameLe a b then a :: b :: bs else b :: insertSorted a bs

/-- Embedding of `reply.sort_by(|a, b| a.name.cmp(&b.name))`.  Rust's
`sort_by` is a stable sort, and a stable sort is extensionally determined by
its comparator, so the structural insertion sort below computes the same
function. -/
def sortByName : List Item → List Item
  | [] => []
  | a :: as => insertSorted a (sortByName as)

/-- The match-counting fold of the diff:
`reply.iter().zip(cached_results.iter()).fold(0, |acc, (a, b)| if a.name == b.name { acc + 1 } else { acc })`. -/
def matchCount (reply cache : List Item) : Nat :=
  (reply.zip cache).foldl
    (fun acc z => if z.1.name = z.2.name then acc + 1 else acc) 0

/-- Size of the `usize` value space on the 64-bit targets this plugin builds
for. -/
def USIZE : Nat := 18446744073709551616

/-- Bitwise complement of a `usize` value.  In the source the diff condition
reads `!reply.iter().zip(..).fold(0, ..) == cached_results.len()`: unary `!`
binds tighter than `==` in Rust, so it is the integer complement of the fold
result that is compared against the length, not the negation of an equality. -/
def usizeNot (x : Nat) : Nat := USIZE - 1 - x % USIZE

/-- The materiality condition exactly as the source computes it:
`cached_results.len() != reply.len() || (!fold_result) == cached_results.len()`,
where `reply` has already been sorted by title. -/
def materiallyChanged (cache reply : List Item) : Bool :=
  cache.length != reply.length
    || usizeNot (matchCount reply cache) == cache.length

/-- Modelled from the spec: the materiality condition as sections 4.2 and 9
word it — lengths differ, or the count of position-aligned title matches is
not the cache length.  This is the intended reading of the source condition,
in which the `!` negates the comparison rather than complementing the count. -/
def specMateriallyChanged (cache reply : List Item) : Bool :=
  cache.length != reply.length
    || !(matchCount reply cache == cache.length)

/-- Observable outcome of one iteration of the poller loop body: the cache
contents after the iteration, the events pushed to the dispatcher queue, and
the sleep performed before the next check of the shutdown flag (`none` when
the iteration reaches the top of the loop without sleeping). -/
structure PollResult where
  cache : List Item
  events : List Event
  sleepMs : Option Nat
deriving DecidableEq, Repr

/-- Embedding of one iteration of the poller loop body in `Apps::spawn_zbus`.
The input is the outcome of `conn.call_method(.., "WindowList", &()).await`
followed by `m.body::<Vec<Item>>()`.  On a transport error the body of
`if let Ok(m) = m` — including the `glib::timeout_future(100ms)` sleep — is
skipped entirely.  On success the reply is sorted, the materiality condition
decides between `cached_results.splice(.., reply)` plus one
`sender.send(Event::WindowList)` and no update at all, and the 100ms sleep
runs in either case (also when only the body deserialization failed). -/
def pollIter (cache : List Item)
    (m : Except TransportError (Except BodyError (List Item))) : PollResult :=
  match m with
  | .error _ => { cache := cache, events := [], sleepMs := none }
  | .ok body =>
    match body with
    | .error _ => { cache := cache, events := [], sleepMs := some 100 }
    | .ok reply =>
      let sorted := sortByName reply
      if materiallyChanged cache sorted then
        { cache := sorted, events := [Event.windowList], sleepMs := some 100 }
      else
        { cache := cache, events := [], sleepMs := some 100 }

/-- Embedding of `.expect(msg)` on the result of a remote call: the value on
success, a panic carrying `msg` on failure. -/
def expectCall (msg : String) (r : Except TransportError Unit) :
    Except String Unit :=
  match r with
  | .ok u => .ok u
  | .error _ => .error msg

/-- The `Event::Activate` arm of the event loop applied to the outcome of the
`WindowFocus` remote call:
`zbus_conn.call_method(.., "WindowFocus", &((e,))).await.expect("Failed to focus selected window")`.
A `.error` result is a panic of the handler task. -/
def handleActivate (r : Except TransportError Unit) : Except String Unit :=
  expectCall "Failed to focus selected window" r

/-- The `Event::Close` arm applied to the outcome of the `WindowQuit` remote
call, with its `.expect("Failed to close selected window")`. -/
def handleClose (r : Except TransportError Unit) : Except String Unit :=
  expectCall "Failed to close selected window" r

/-- Decide whether a handler outcome is a panic (an `expect` that fired). -/
def handlerPanics : Except String Unit → Bool
  | .error _ => true
  | .ok _ => false

/-- One step of the grouping fold of the reconciliation pass, acting on the
`BTreeMap<String, BoxedWindowList>` accumulator, represented as an association
list with keys kept in strictly ascending `descLt` order (the iteration order
of a `BTreeMap`).  `get_mut` on a present key pushes the record at the end of
that stack; an absent key is inserted with a singleton stack. -/
def insertGrouped (acc : List (String × List Item)) (e : Item) :
    List (String × List Item) :=
  match acc with
  | [] => [(e.description, [e])]
  | (k, v) :: rest =>
    if e.description = k then (k, v ++ [e]) :: rest
    else if descLt e.description k then
      (e.description, [e]) :: (k, v) :: rest
    else (k, v) :: insertGrouped rest e

/-- Embedding of the grouping fold
`results.iter().fold(BTreeMap::new(), |mut acc, elem| { .. })` of the
`Event::WindowList` and `Event::RefreshFromCache` arms. -/
def groupByDesc (cache : List Item) : List (String × List Item) :=
  cache.foldl insertGrouped []

/-- Embedding of `stack_active.into_values().collect::<Vec<BoxedWindowList>>()`:
the grouped stacks in ascending key order. -/
def stackActive (cache : List Item) : List (List Item) :=
  (groupByDesc cache).map Prod.snd

/-- Description of the first window of a stack.  The source reads it as
`s.0[0].description`, which panics on an empty stack; stacks produced by the
grouping fold are never empty (proved below), so the total variant returning
`none` on the empty list agrees with the source everywhere it runs. -/
def firstDescOpt (s : List Item) : Option String := s.head?.map Item.description

/-- The application keys of a pool of stacks. -/
def stackKeys (pool : List (List Item)) : List String :=
  pool.filterMap firstDescOpt

/-- Modelled from the spec: a FavoriteEntry / dock entry (section 3).  The
Rust type `dock_object::DockObject` is not among the sources; the code
exercises an optional resolved application name (`property::<Option<DesktopAppInfo>>("appinfo")`
followed by `.name()`), an optional desktop-file path (`get_path()`, the appId
used by the toggle), the pinned flag (`set_saved`), and the live window stack
(the `"active"` property, a `BoxedWindowList` whose glib default is the empty
stack — an explicit empty stack, never absent). -/
structure DockObject where
  appinfo : Option String
  path : Option String
  saved : Bool
  active : List Item
deriving DecidableEq, Repr

instance : Inhabited DockObject :=
  ⟨{ appinfo := none, path := none, saved := false, active := [] }⟩

/-- Modelled from the spec: `DockObject::from_search_results(v)`, wrapping a
running stack as a dock entry of the running view-collection (a RunningEntry,
section 3). -/
def fromSearchResults (s : List Item) : DockObject :=
  { appinfo := none, path := none, saved := false, active := s }

/-- Embedding of
`stack_active.iter().enumerate().find(|(_i, s)| s.0[0].description == name)`
followed by `stack_active.remove(i)`: locate the first stack whose key is
`name` and take it out of the pool, returning the stack and the remaining
pool, or `none` when no stack matches. -/
def removeStack (name : String) : List (List Item) →
    Option (List Item × List (List Item))
  | [] => none
  | s :: rest =>
    if firstDescOpt s = some name then some (s, rest)
    else
      match removeStack name rest with
      | some (t, rest') => some (t, s :: rest')
      | none => none

/-- Embedding of the merge body for one saved dock entry with resolved name
`name`: if a grouped stack matches, remove it from the pool and store it in
the `"active"` property; otherwise, if any record of the raw ungrouped cache
(the `cached_results` guard `results.iter().find(|s| s.description == name)`)
bears that description, store an explicit empty stack; otherwise leave the
entry untouched. -/
def mergeStepName (cache : List Item) (pool : List (List Item))
    (d : DockObject) (name : String) : DockObject × List (List Item) :=
  match removeStack name pool with
  | some (s, pool') => ({ d with active := s }, pool')
  | none =>
    if cache.any (fun e => e.description == name) then
      ({ d with active := [] }, pool)
    else (d, pool)

/-- Embedding of the merge body run for one saved dock entry: an entry whose
`"appinfo"` property is absent is skipped (the `if let Some(cur_app_info)`
guard); otherwise the entry is merged against its resolved name. -/
def mergeStep (cache : List Item) (pool : List (List Item)) (d : DockObject) :
    DockObject × List (List Item) :=
  match d.appinfo with
  | none => (d, pool)
  | some name => mergeStepName cache pool d name

/-- Embedding of the `while let Some(item) = saved_app_model.item(saved_i)`
merge loop: every saved entry is processed in order against the shrinking
running pool; the loop never adds or removes saved entries. -/
def mergeFavorites (cache : List Item) (pool : List (List Item)) :
    List DockObject → List DockObject × List (List Item)
  | [] => ([], pool)
  | d :: rest =>
    let step := mergeStep cache pool d
    let tail := mergeFavorites cache step.2 rest
    (step.1 :: tail.1, tail.2)

/-- One full reconciliation pass of the `Event::WindowList` (identically
`Event::RefreshFromCache`) arm: group the cache, then merge with the saved
entries.  Returns the updated saved entries and the leftover running pool. -/
def windowListPass (cache : List Item) (saved : List DockObject) :
    List DockObject × List (List Item) :=
  mergeFavorites cache (stackActive cache) saved

/-- The running pool `stack_active` as it stands when the merge loop reaches
the saved entry at position `i`: the leftover of merging the first `i` saved
entries into the freshly grouped stacks.  Earlier favorites may already have
removed stacks from it. -/
def poolAt (cache : List Item) (saved : List DockObject) (i : Nat) :
    List (List Item) :=
  (mergeFavorites cache (stackActive cache) (saved.take i)).2

/-- Embedding of `gio::ListStore::splice(pos, n_removals, additions)`. -/
def spliceRange (l : List DockObject) (pos len : Nat)
    (additions : List DockObject) : List DockObject :=
  l.take pos ++ additions ++ l.drop (pos + len)

/-- Embedding of the publish step
`active_app_model.splice(0, model_len, &new_results[..])` where `model_len`
is the current item count: the previous running view-collection is replaced
in full. -/
def publishRunning (prev : List DockObject) (pool : List (List Item)) :
    List DockObject :=
  spliceRange prev 0 prev.length (pool.map fromSearchResults)

/-- Index of the last entry whose desktop-file path is `name`; this is the
value left in `index` by the scanning loop of the `Event::Favorite` arm,
which keeps overwriting `index = Some(cur)` on every match. -/
def lastMatchIdx (name : String) : List DockObject → Option Nat
  | [] => none
  | d :: rest =>
    match lastMatchIdx name rest with
    | some i => some (i + 1)
    | none => if d.path = some name then some 0 else none

/-- The scanning loop of the `Event::Favorite` arm flips the pinned flag of
every matching entry while it walks the source model. -/
def markMatches (name : String) (b : Bool) (l : List DockObject) :
    List DockObject :=
  l.map (fun d => if d.path = some name then { d with saved := b } else d)

/-- Embedding of one `Event::Favorite((name, should_favorite))` arm on one
source/destination model pair: scan the source model flipping the pinned flag
of each match and remembering the last matching index; if one was found, move
that (already reflagged) entry from the source model to the end of the
destination model; in every case an `Event::RefreshFromCache` is sent
afterwards.  Returns the new source model, the new destination model, and the
events enqueued. -/
def favoriteMove (name : String) (b : Bool) (src dst : List DockObject) :
    List DockObject × List DockObject × List Event :=
  let marked := markMatches name b src
  match lastMatchIdx name src with
  | some i => (marked.eraseIdx i, dst ++ [marked.getD i default],
      [Event.refreshFromCache])
  | none => (marked, dst, [Event.refreshFromCache])

/-- Embedding of the dispatch of `Event::Favorite((name, should_favorite))`
over the two view-collections: favoriting moves from the active (running)
model into the saved model, unfavoriting moves the opposite way.  Returns the
new active model, the new saved model, and the events enqueued. -/
def handleFavorite (name : String) (shouldFavorite : Bool)
    (activeModel savedModel : List DockObject) :
    List DockObject × List DockObject × List Event :=
  if shouldFavorite then
    let r := favoriteMove name true activeModel savedModel
    (r.1, r.2.1, r.2.2)
  else
    let r := favoriteMove name false savedModel activeModel
    (r.2.1, r.1, r.2.2)

/-- Lookup in the association-list rendering of the grouping map. -/
def alookup (d : String) : List (String × List Item) → Option (List Item)
  | [] => none
  | (k, v) :: rest => if d = k then some v else alookup d rest

/-- Append onto an optional stack, creating it when records arrive: the shape
of a grouping-map entry after more records of its key have been folded in. -/
def optAppend (o : Option (List Item)) (f : List Item) : Option (List Item) :=
  match o, f with
  | none, [] => none
  | none, f => some f
  | some v, f => some (v ++ f)

/-- Strict ordering of grouping-map entries by key: the invariant of the
association-list rendering of the `BTreeMap`. -/
def keyLt (p q : String × List Item) : Prop := descLt p.1 q.1 = true

/-! Facts about the diff fold. -/

theorem matchFold_acc (zs : List (Item × Item)) (acc : Nat) :
    zs.foldl (fun a z => if z.1.name = z.2.name then a + 1 else a) acc
      = acc + zs.foldl (fun a z => if z.1.name = z.2.name then a + 1 else a) 0 := by
  induction zs generalizing acc with
  | nil => simp
  | cons z zs ih =>
    simp only [List.foldl_cons]
    rw [ih (if z.1.name = z.2.name then acc + 1 else acc),
      ih (if z.1.name = z.2.name then 0 + 1 else 0)]
    split <;> omega

theorem matchCount_nil_left (l : List Item) : matchCount [] l = 0 := by
  simp [matchCount]

theorem matchCount_nil_right (l : List Item) : matchCount l [] = 0 := by
  simp [matchCount]

theorem matchCount_cons (a b : Item) (l₁ l₂ : List Item) :
    matchCount (a :: l₁) (b :: l₂)
      = (if a.name = b.name then 1 else 0) + matchCount l₁ l₂ := by
  simp only [matchCount, List.zip_cons_cons, List.foldl_cons]
  rw [matchFold_acc]

theorem matchCount_le (l₁ l₂ : List Item) : matchCount l₁ l₂ ≤ l₂.length := by
  induction l₁ generalizing l₂ with
  | nil => simp [matchCount_nil_left]
  | cons a l₁ ih =>
    cases l₂ with
    | nil => simp [matchCount_nil_right]
    | cons b l₂ =>
      rw [matchCount_cons]
      have := ih l₂
      simp only [List.length_cons]
      split <;> omega

theorem matchCount_eq_length_iff (l₁ l₂ : List Item)
    (h : l₁.length = l₂.length) :
    matchCount l₁ l₂ = l₂.length ↔ l₁.map Item.name = l₂.map Item.name := by
  induction l₁ generalizing l₂ with
  | nil =>
    cases l₂ with
    | nil => simp [matchCount_nil_left]
    | cons b l₂ => simp at h
  | cons a l₁ ih =>
    cases l₂ with
    | nil => simp at h
    | cons b l₂ =>
      simp only [List.length_cons, Nat.succ.injEq] at h
      rw [matchCount_cons]
      simp only [List.map_cons, List.length_cons, List.cons.injEq]
      constructor
      · intro hc
        have hle := matchCount_le l₁ l₂
        by_cases hn : a.name = b.name
        · rw [if_pos hn] at hc
          exact ⟨hn, (ih l₂ h).mp (by omega)⟩
        · rw [if_neg hn] at hc; omega
      · intro ⟨hn, hm⟩
        rw [if_pos hn, (ih l₂ h).mpr hm]
        omega

theorem usizeNot_ne (n : Nat) : usizeNot n ≠ n := by
  unfold usizeNot USIZE
  omega

theorem materiallyChanged_false_of_names (cache reply : List Item)
    (h : cache.map Item.name = reply.map Item.name) :
    materiallyChanged cache reply = false := by
  have hlen : cache.length = reply.length := by
    have := congrArg List.length h
    simpa using this
  have hmc : matchCount reply cache = cache.length :=
    (matchCount_eq_length_iff reply cache hlen.symm).mpr h.symm
  simp only [materiallyChanged, hmc, hlen, bne_self_eq_false, Bool.false_or,
    beq_eq_false_iff_ne, ne_eq]
  rw [← hlen]
  exact usizeNot_ne cache.length

/-- C1 (counterexample). The claim states that a `TransportError` from the
`WindowFocus` call is logged and dropped and the handler continues; at the
concrete failing input the `Event::Activate` arm instead panics through
`.expect`, and likewise the `Event::Close` arm. -/
theorem focus_failure_not_dropped_cex :
    handlerPanics (handleActivate (Except.error TransportError.transport)) = true
      ∧ handlerPanics (handleClose (Except.error TransportError.transport)) = true := by
  exact ⟨rfl, rfl⟩

/-- C1 (amended). For every `TransportError` returned by the `WindowFocus`
or `WindowQuit` remote call, the corresponding event-handler arm panics via
`.expect` with the hard-coded message, rather than logging and continuing. -/
theorem focus_close_failure_panics (e : TransportError) :
    handleActivate (Except.error e)
        = Except.error "Failed to focus selected window"
      ∧ handleClose (Except.error e)
        = Except.error "Failed to close selected window" := by
  cases e; exact ⟨rfl, rfl⟩

/-- C2 (counterexample). The claim states the poller sleeps its fixed 100ms
interval after every `ListWindows` call, also on failure; at this concrete
transport failure the iteration performs no sleep at all, because the
`timeout_future` call sits inside the `if let Ok(m)` branch. -/
theorem poll_no_sleep_on_transport_error_cex :
    (pollIter [] (Except.error TransportError.transport)).sleepMs = none := by
  rfl

/-- C2 (amended). On a transport failure the poller iteration leaves the
cache untouched, emits nothing, and — skipping the sleep — immediately
returns to the shutdown-flag check; the fixed 100ms sleep happens exactly on
iterations whose method call succeeded, whether or not the body parsed and
whether or not the cache changed.  No failure aborts the loop. -/
theorem poll_sleep_only_on_success (cache : List Item) (e : TransportError)
    (r : Except BodyError (List Item)) :
    pollIter cache (Except.error e) = ⟨cache, [], none⟩
      ∧ (pollIter cache (Except.ok r)).sleepMs = some 100 := by
  cases e
  refine ⟨rfl, ?_⟩
  cases r with
  | error b => rfl
  | ok reply =>
    simp only [pollIter]
    split <;> rfl

/-- C3. If the sorted reply agrees with the cache title-for-title at every
position, the materiality check reports no change, the cache is not modified
and no `WindowListChanged` notification is emitted; moreover feeding any
snapshot twice never emits a notification on the second delivery. -/
theorem diff_idempotent (cache reply : List Item)
    (h : cache.map Item.name = (sortByName reply).map Item.name) :
    ((pollIter cache (Except.ok (Except.ok reply))).cache = cache
        ∧ (pollIter cache (Except.ok (Except.ok reply))).events = [])
      ∧ ∀ c r : List Item,
          (pollIter (pollIter c (Except.ok (Except.ok r))).cache
            (Except.ok (Except.ok r))).events = [] := by
  constructor
  · have hm := materiallyChanged_false_of_names cache (sortByName reply) h
    constructor <;> simp [pollIter, hm]
  · intro c r
    by_cases hc : materiallyChanged c (sortByName r) = true
    · have h2 : materiallyChanged (sortByName r) (sortByName r) = false :=
        materiallyChanged_false_of_names _ _ rfl
      simp [pollIter, hc, h2]
    · simp only [Bool.not_eq_true] at hc
      simp [pollIter, hc]

/-- C3 (witness). -/
theorem diff_idempotent_witness :
    (pollIter [⟨1, "a", "da"⟩] (Except.ok (Except.ok [⟨1, "a", "da"⟩]))).cache
        = [⟨1, "a", "da"⟩] :=
  (diff_idempotent [⟨1, "a", "da"⟩] [⟨1, "a", "da"⟩] (by decide)).1.1

/-- C5. Replace-all atomicity: every successful, well-formed `ListWindows`
reply either leaves the cache exactly as it was with no notification (and the
materiality check reported no change), or replaces the cache in its entirety
by the sorted reply and pushes exactly one `WindowListChanged` notification
(and the check reported a change). -/
theorem cache_replace_all (cache reply : List Item) :
    ((pollIter cache (Except.ok (Except.ok reply))).cache = cache
        ∧ (pollIter cache (Except.ok (Except.ok reply))).events = []
        ∧ materiallyChanged cache (sortByName reply) = false)
      ∨ ((pollIter cache (Except.ok (Except.ok reply))).cache = sortByName reply
        ∧ (pollIter cache (Except.ok (Except.ok reply))).events = [Event.windowList]
        ∧ materiallyChanged cache (sortByName reply) = true) := by
  by_cases hc : materiallyChanged cache (sortByName reply) = true
  · right
    refine ⟨?_, ?_, hc⟩ <;> simp [pollIter, hc]
  · left
    simp only [Bool.not_eq_true] at hc
    refine ⟨?_, ?_, hc⟩ <;> simp [pollIter, hc]

theorem specMateriallyChanged_false_iff (cache reply : List Item) :
    specMateriallyChanged cache reply = false
      ↔ cache.map Item.name = reply.map Item.name := by
  unfold specMateriallyChanged
  simp only [Bool.or_eq_false_iff, bne_eq_false_iff_eq, Bool.not_eq_false',
    beq_iff_eq]
  constructor
  · rintro ⟨hlen, hmc⟩
    exact ((matchCount_eq_length_iff reply cache hlen.symm).mp hmc).symm
  · intro h
    have hlen : cache.length = reply.length := by
      have := congrArg List.length h
      simpa using this
    exact ⟨hlen, (matchCount_eq_length_iff reply cache hlen.symm).mpr h.symm⟩

/-- C4.  The count-of-matches condition as the spec and the claim word it
(`specMateriallyChanged`, the intended reading) is indeed equivalent to title
sequence inequality for every cache and every reply; but the condition the
source actually computes (`materiallyChanged`, in which the Rust unary `!`
binds to the fold result and is a bitwise usize complement) is not: at the
one-element failing input below the titles differ yet the source condition
reports no material change. -/
theorem diff_count_check_bug :
    (∀ cache reply : List Item,
        specMateriallyChanged cache reply = true
          ↔ cache.map Item.name ≠ reply.map Item.name)
      ∧ materiallyChanged [⟨0, "a", "da"⟩] [⟨1, "b", "db"⟩] = false
      ∧ ([(⟨0, "a", "da"⟩ : Item)].map Item.name
          ≠ [(⟨1, "b", "db"⟩ : Item)].map Item.name) := by
  refine ⟨fun cache reply => ?_, by decide, by decide⟩
  rw [← not_iff_not, Bool.not_eq_true, not_not,
    specMateriallyChanged_false_iff]

/-! Facts about the character-wise string order of the grouping map. -/

theorem strLt_cons_iff (x y : Char) (xs ys : List Char) :
    strLt (x :: xs) (y :: ys) = true
      ↔ x.toNat < y.toNat ∨ (x.toNat = y.toNat ∧ strLt xs ys = true) := by
  simp only [strLt]
  by_cases h1 : x.toNat < y.toNat
  · simp [h1]
  · by_cases h2 : x.toNat = y.toNat
    · simp [h1, h2]
    · simp [h1, h2]

theorem strLt_irrefl (s : List Char) : strLt s s = false := by
  induction s with
  | nil => rfl
  | cons x xs ih =>
    simp [strLt, ih]

theorem strLt_trans (a b c : List Char) (hab : strLt a b = true)
    (hbc : strLt b c = true) : strLt a c = true := by
  induction a generalizing b c with
  | nil =>
    cases b with
    | nil => simp [strLt] at hab
    | cons y ys =>
      cases c with
      | nil => simp [strLt] at hbc
      | cons z zs => simp [strLt]
  | cons x xs ih =>
    cases b with
    | nil => simp [strLt] at hab
    | cons y ys =>
      cases c with
      | nil => simp [strLt] at hbc
      | cons z zs =>
        rw [strLt_cons_iff] at hab hbc ⊢
        rcases hab with h1 | ⟨h1, h1s⟩ <;> rcases hbc with h2 | ⟨h2, h2s⟩
        · exact Or.inl (by omega)
        · exact Or.inl (by omega)
        · exact Or.inl (by omega)
        · exact Or.inr ⟨by omega, ih ys zs h1s h2s⟩

theorem char_toNat_inj (a b : Char) (h : a.toNat = b.toNat) : a = b := by
  unfold Char.toNat at h
  exact Char.ext (UInt32.toNat.inj h)

theorem strLt_eq_of_not (a b : List Char) (hab : strLt a b = false)
    (hba : strLt b a = false) : a = b := by
  induction a generalizing b with
  | nil =>
    cases b with
    | nil => rfl
    | cons y ys => simp [strLt] at hab
  | cons x xs ih =>
    cases b with
    | nil => simp [strLt] at hba
    | cons y ys =>
      have hab' := hab
      have hba' := hba
      rw [← Bool.not_eq_true, strLt_cons_iff] at hab' hba'
      push_neg at hab' hba'
      have hxy : x.toNat = y.toNat := by omega
      have hs : strLt xs ys = false := by
        have := hab'.2 hxy
        simpa using this
      have hs' : strLt ys xs = false := by
        have := hba'.2 hxy.symm
        simpa using this
      rw [char_toNat_inj x y hxy, ih ys hs hs']

theorem descLt_irrefl (s : String) : descLt s s = false := strLt_irrefl s.data

theorem descLt_trans (a b c : String) (hab : descLt a b = true)
    (hbc : descLt b c = true) : descLt a c = true :=
  strLt_trans a.data b.data c.data hab hbc

theorem descLt_eq_of_not (a b : String) (hab : descLt a b = false)
    (hba : descLt b a = false) : a = b :=
  String.ext (strLt_eq_of_not a.data b.data hab hba)

theorem descLt_ne (a b : String) (h : descLt a b = true) : a ≠ b := by
  intro he
  rw [he, descLt_irrefl] at h
  exact Bool.false_ne_true h

/-! Facts about the grouping fold. -/

theorem alookup_eq_none_iff (d : String) (l : List (String × List Item)) :
    alookup d l = none ↔ d ∉ l.map Prod.fst := by
  induction l with
  | nil => simp [alookup]
  | cons p rest ih =>
    obtain ⟨k, v⟩ := p
    by_cases h : d = k
    · simp [alookup, h]
    · simp [alookup, h, ih]

theorem alookup_of_mem (l : List (String × List Item))
    (hnd : (l.map Prod.fst).Nodup) (p : String × List Item) (hp : p ∈ l) :
    alookup p.1 l = some p.2 := by
  induction l with
  | nil => simp at hp
  | cons q rest ih =>
    obtain ⟨k, v⟩ := q
    simp only [List.map_cons, List.nodup_cons] at hnd
    rcases List.mem_cons.mp hp with he | hm
    · subst he
      simp [alookup]
    · have hk : p.1 ≠ k := by
        intro h
        exact hnd.1 (by rw [← h]; exact List.mem_map.mpr ⟨p, hm, rfl⟩)
      simp [alookup, hk, ih hnd.2 hm]

theorem mem_insertGrouped (acc : List (String × List Item)) (e : Item)
    (q : String × List Item) (h : q ∈ insertGrouped acc e) :
    q ∈ acc ∨ q.1 = e.description := by
  induction acc with
  | nil =>
    simp only [insertGrouped, List.mem_singleton] at h
    subst h
    exact Or.inr rfl
  | cons p rest ih =>
    obtain ⟨k, v⟩ := p
    simp only [insertGrouped] at h
    by_cases h1 : e.description = k
    · rw [if_pos h1] at h
      rcases List.mem_cons.mp h with he | hm
      · subst he; exact Or.inr h1.symm
      · exact Or.inl (List.mem_cons_of_mem _ hm)
    · rw [if_neg h1] at h
      by_cases h2 : descLt e.description k = true
      · rw [if_pos h2] at h
        rcases List.mem_cons.mp h with he | hm
        · subst he; exact Or.inr rfl
        · exact Or.inl hm
      · rw [if_neg h2] at h
        rcases List.mem_cons.mp h with he | hm
        · subst he; exact Or.inl (List.mem_cons_self _ _)
        · rcases ih hm with hi | hi
          · exact Or.inl (List.mem_cons_of_mem _ hi)
          · exact Or.inr hi

theorem insertGrouped_sorted (acc : List (String × List Item)) (e : Item)
    (h : acc.Pairwise keyLt) : (insertGrouped acc e).Pairwise keyLt := by
  induction acc with
  | nil => simp [insertGrouped, List.pairwise_cons, keyLt]
  | cons p rest ih =>
    obtain ⟨k, v⟩ := p
    rw [List.pairwise_cons] at h
    obtain ⟨hrel, hrest⟩ := h
    simp only [insertGrouped]
    by_cases h1 : e.description = k
    · rw [if_pos h1]
      exact List.Pairwise.cons hrel hrest
    · rw [if_neg h1]
      by_cases h2 : descLt e.description k = true
      · rw [if_pos h2]
        refine List.Pairwise.cons ?_ (List.Pairwise.cons hrel hrest)
        intro q hq
        rcases List.mem_cons.mp hq with he | hm
        · subst he; exact h2
        · exact descLt_trans _ _ _ h2 (hrel q hm)
      · rw [if_neg h2]
        have hk : descLt k e.description = true := by
          cases hc : descLt k e.description with
          | true => rfl
          | false =>
            exact absurd
              (descLt_eq_of_not e.description k (Bool.not_eq_true _ ▸ h2) hc)
              h1
        refine List.Pairwise.cons ?_ (ih hrest)
        intro q hq
        rcases mem_insertGrouped rest e q hq with hm | hq1
        · exact hrel q hm
        · show descLt k q.1 = true
          rw [hq1]
          exact hk

theorem alookup_insertGrouped (acc : List (String × List Item)) (e : Item)
    (hs : acc.Pairwise keyLt) (d : String) :
    alookup d (insertGrouped acc e)
      = if d = e.description
        then some (((alookup d acc).getD []) ++ [e])
        else alookup d acc := by
  induction acc with
  | nil =>
    by_cases h : d = e.description <;> simp [insertGrouped, alookup, h]
  | cons p rest ih =>
    obtain ⟨k, v⟩ := p
    rw [List.pairwise_cons] at hs
    obtain ⟨hrel, hrest⟩ := hs
    simp only [insertGrouped]
    by_cases h1 : e.description = k
    · rw [if_pos h1]
      by_cases hd : d = k
      · subst hd
        have hde : d = e.description := h1.symm
        simp [alookup, hde]
      · have hd2 : d ≠ e.description := fun hh => hd (hh.trans h1)
        simp [alookup, hd, hd2]
    · rw [if_neg h1]
      by_cases h2 : descLt e.description k = true
      · rw [if_pos h2]
        by_cases hd : d = e.description
        · have hnone : alookup d ((k, v) :: rest) = none := by
            rw [alookup_eq_none_iff]
            intro hmem
            simp only [List.map_cons, List.mem_cons] at hmem
            rcases hmem with he | hm
            · exact descLt_ne _ _ h2 (hd.symm.trans he)
            · obtain ⟨q, hq, hq1⟩ := List.mem_map.mp hm
              exact descLt_ne _ _
                (descLt_trans _ _ _ h2 (hrel q hq)) (hq1.trans hd).symm
          rw [hnone]
          simp [alookup, hd]
        · simp [alookup, hd]
      · rw [if_neg h2]
        by_cases hd : d = k
        · subst hd
          have hde : d ≠ e.description := fun hh => h1 hh.symm
          simp [alookup, hde]
        · simp only [alookup, if_neg hd]
          rw [ih hrest]

theorem foldl_insertGrouped_sorted (l : List Item)
    (acc : List (String × List Item)) (h : acc.Pairwise keyLt) :
    (l.foldl insertGrouped acc).Pairwise keyLt := by
  induction l generalizing acc with
  | nil => exact h
  | cons x t ih => exact ih _ (insertGrouped_sorted acc x h)

theorem optAppend_nil (o : Option (List Item)) : optAppend o [] = o := by
  cases o <;> simp [optAppend]

theorem optAppend_push (o : Option (List Item)) (x : Item) (f : List Item) :
    optAppend (some ((o.getD []) ++ [x])) f = optAppend o (x :: f) := by
  cases o <;> cases f <;> simp [optAppend]

theorem alookup_foldl (l : List Item) (acc : List (String × List Item))
    (hs : acc.Pairwise keyLt) (d : String) :
    alookup d (l.foldl insertGrouped acc)
      = optAppend (alookup d acc)
          (l.filter (fun e => e.description == d)) := by
  induction l generalizing acc with
  | nil => simp [optAppend_nil]
  | cons x t ih =>
    simp only [List.foldl_cons, List.filter_cons]
    rw [ih _ (insertGrouped_sorted acc x hs),
      alookup_insertGrouped acc x hs d]
    by_cases hd : d = x.description
    · rw [if_pos hd, if_pos (beq_iff_eq.mpr hd.symm), optAppend_push]
    · rw [if_neg hd, if_neg (by simp [beq_iff_eq]; exact fun h => hd h.symm)]

theorem alookup_groupByDesc (cache : List Item) (d : String) :
    alookup d (groupByDesc cache)
      = if cache.filter (fun e => e.description == d) = []
        then none
        else some (cache.filter (fun e => e.description == d)) := by
  unfold groupByDesc
  rw [alookup_foldl cache [] List.Pairwise.nil d]
  cases h : cache.filter (fun e => e.description == d) with
  | nil => simp [alookup, optAppend]
  | cons a l => simp [alookup, optAppend]

theorem groupByDesc_sorted (cache : List Item) :
    (groupByDesc cache).Pairwise keyLt :=
  foldl_insertGrouped_sorted cache [] List.Pairwise.nil

theorem groupByDesc_keys_nodup (cache : List Item) :
    ((groupByDesc cache).map Prod.fst).Nodup := by
  unfold List.Nodup
  rw [List.pairwise_map]
  exact (groupByDesc_sorted cache).imp (fun h => descLt_ne _ _ h)

theorem groupByDesc_mem_spec (cache : List Item) (p : String × List Item)
    (hp : p ∈ groupByDesc cache) :
    p.2 = cache.filter (fun e => e.description == p.1)
      ∧ p.2 ≠ [] ∧ firstDescOpt p.2 = some p.1 := by
  have hl := alookup_of_mem _ (groupByDesc_keys_nodup cache) p hp
  rw [alookup_groupByDesc] at hl
  by_cases h : cache.filter (fun e => e.description == p.1) = []
  · rw [if_pos h] at hl
    exact absurd hl (by simp)
  · rw [if_neg h] at hl
    have h2 : p.2 = cache.filter (fun e => e.description == p.1) :=
      (Option.some.inj hl).symm
    refine ⟨h2, fun hn => h (by rw [← h2]; exact hn), ?_⟩
    cases hc : cache.filter (fun e => e.description == p.1) with
    | nil => exact absurd hc h
    | cons a t =>
      have ha : a ∈ cache.filter (fun e => e.description == p.1) :=
        hc ▸ List.mem_cons_self a t
      have had : a.description = p.1 := beq_iff_eq.mp (List.mem_filter.mp ha).2
      rw [h2, hc]
      simp [firstDescOpt, had]

theorem groupByDesc_keys_iff (cache : List Item) (d : String) :
    d ∈ (groupByDesc cache).map Prod.fst ↔ d ∈ cache.map Item.description := by
  have h1 : alookup d (groupByDesc cache) = none
      ↔ cache.filter (fun e => e.description == d) = [] := by
    rw [alookup_groupByDesc]
    split <;> simp_all
  rw [← not_iff_not, ← alookup_eq_none_iff, h1, List.filter_eq_nil_iff]
  simp only [List.mem_map, beq_iff_eq, not_exists]
  constructor
  · intro h e
    intro ⟨he, hd⟩
    exact (h e he) hd
  · intro h e he hd
    exact (h e) ⟨he, hd⟩

/-- C6.  The grouping fold of a reconciliation pass builds exactly one stack
per distinct description occurring in the cache — every entry of the grouping
map holds precisely the cache records bearing its key, in cache encounter
order (`List.filter` preserves it), and each description present in the cache
owns exactly one entry — and the stack pool handed to the merge is exactly
the value collection of that map. -/
theorem grouping_correct (cache : List Item) :
    (∀ p ∈ groupByDesc cache,
        p.2 = cache.filter (fun e => e.description == p.1))
      ∧ (∀ d : String,
          ((groupByDesc cache).map Prod.fst).count d
            = if d ∈ cache.map Item.description then 1 else 0)
      ∧ stackActive cache = (groupByDesc cache).map Prod.snd := by
  refine ⟨fun p hp => (groupByDesc_mem_spec cache p hp).1, fun d => ?_, rfl⟩
  by_cases h : d ∈ cache.map Item.description
  · rw [if_pos h]
    exact List.count_eq_one_of_mem (groupByDesc_keys_nodup cache)
      ((groupByDesc_keys_iff cache d).mpr h)
  · rw [if_neg h]
    exact List.count_eq_zero_of_not_mem
      (fun hm => h ((groupByDesc_keys_iff cache d).mp hm))

/-! Facts about the favorites merge. -/

theorem removeStack_eq_none_iff (name : String) (pool : List (List Item)) :
    removeStack name pool = none
      ↔ ∀ s ∈ pool, firstDescOpt s ≠ some name := by
  induction pool with
  | nil => simp [removeStack]
  | cons s rest ih =>
    simp only [removeStack]
    by_cases h : firstDescOpt s = some name
    · rw [if_pos h]
      simp only [List.mem_cons]
      constructor
      · intro hn; exact absurd hn (by simp)
      · intro hn; exact absurd h (hn s (Or.inl rfl))
    · rw [if_neg h]
      cases hr : removeStack name rest with
      | none =>
        simp only [List.mem_cons]
        constructor
        · intro _ t ht
          rcases ht with he | hm
          · exact he ▸ h
          · exact (ih.mp hr) t hm
        · intro _; trivial
      | some pr =>
        obtain ⟨t0, rest'⟩ := pr
        simp only [List.mem_cons]
        constructor
        · intro hn
          exact Option.noConfusion hn
        · intro hn
          have h2 := ih.mpr (fun t ht => hn t (Or.inr ht))
          rw [hr] at h2
          exact Option.noConfusion h2

theorem removeStack_some_spec (name : String) (pool : List (List Item))
    (t : List Item) (pool' : List (List Item))
    (h : removeStack name pool = some (t, pool')) :
    firstDescOpt t = some name ∧ t ∈ pool ∧ pool'.Sublist pool
      ∧ ∀ u ∈ pool, u = t ∨ u ∈ pool' := by
  induction pool generalizing t pool' with
  | nil => simp [removeStack] at h
  | cons s rest ih =>
    simp only [removeStack] at h
    by_cases hh : firstDescOpt s = some name
    · rw [if_pos hh] at h
      simp only [Option.some.injEq, Prod.mk.injEq] at h
      obtain ⟨h1, h2⟩ := h
      subst h1; subst h2
      refine ⟨hh, List.mem_cons_self _ _, List.sublist_cons_self _ _, ?_⟩
      intro u hu
      rcases List.mem_cons.mp hu with he | hm
      · exact Or.inl he
      · exact Or.inr hm
    · rw [if_neg hh] at h
      cases hr : removeStack name rest with
      | none => rw [hr] at h; exact absurd h (by simp)
      | some pr =>
        obtain ⟨t0, rest'⟩ := pr
        rw [hr] at h
        simp only [Option.some.injEq, Prod.mk.injEq] at h
        obtain ⟨h1, h2⟩ := h
        subst h1; subst h2
        obtain ⟨ha, hb, hc, hd⟩ := ih t0 rest' hr
        refine ⟨ha, List.mem_cons_of_mem _ hb, hc.cons₂ s, ?_⟩
        intro u hu
        rcases List.mem_cons.mp hu with he | hm
        · exact Or.inr (he ▸ List.mem_cons_self _ _)
        · rcases hd u hm with he | hin
          · exact Or.inl he
          · exact Or.inr (List.mem_cons_of_mem _ hin)

theorem removeStack_finds (name : String) (pool : List (List Item)) :
    pool.Pairwise (fun s u => firstDescOpt s ≠ firstDescOpt u) →
    ∀ s : List Item, s ∈ pool → firstDescOpt s = some name →
    ∃ pool', removeStack name pool = some (s, pool') := by
  induction pool with
  | nil => intro _ s hs; simp at hs
  | cons h0 rest ih =>
    intro hp s hs hsd
    rw [List.pairwise_cons] at hp
    obtain ⟨hrel, hrest⟩ := hp
    simp only [removeStack]
    by_cases hh : firstDescOpt h0 = some name
    · rw [if_pos hh]
      rcases List.mem_cons.mp hs with he | hm
      · exact ⟨rest, by rw [he]⟩
      · exact absurd (hsd.trans hh.symm).symm (hrel s hm)
    · rw [if_neg hh]
      rcases List.mem_cons.mp hs with he | hm
      · exact absurd (he ▸ hsd) hh
      · obtain ⟨pool', hpo⟩ := ih hrest s hm hsd
        exact ⟨h0 :: pool', by rw [hpo]⟩

theorem removeStack_key_gone (name : String) (pool : List (List Item)) :
    pool.Pairwise (fun s u => firstDescOpt s ≠ firstDescOpt u) →
    ∀ (t : List Item) (pool' : List (List Item)),
    removeStack name pool = some (t, pool') →
    ∀ u ∈ pool', firstDescOpt u ≠ some name := by
  induction pool with
  | nil => intro _ t pool' h; simp [removeStack] at h
  | cons s rest ih =>
    intro hp t pool' h
    rw [List.pairwise_cons] at hp
    obtain ⟨hrel, hrest⟩ := hp
    simp only [removeStack] at h
    by_cases hh : firstDescOpt s = some name
    · rw [if_pos hh] at h
      simp only [Option.some.injEq, Prod.mk.injEq] at h
      obtain ⟨h1, h2⟩ := h
      subst h2
      intro u hu hud
      exact hrel u hu (hud.trans hh.symm).symm
    · rw [if_neg hh] at h
      cases hr : removeStack name rest with
      | none => rw [hr] at h; exact absurd h (by simp)
      | some pr =>
        obtain ⟨t0, rest'⟩ := pr
        rw [hr] at h
        simp only [Option.some.injEq, Prod.mk.injEq] at h
        obtain ⟨h1, h2⟩ := h
        subst h2
        intro u hu
        rcases List.mem_cons.mp hu with he | hm
        · exact he ▸ hh
        · exact ih hrest t0 rest' hr u hm

theorem mergeStep_appinfo_none (cache : List Item) (pool : List (List Item))
    (d : DockObject) (h : d.appinfo = none) :
    mergeStep cache pool d = (d, pool) := by
  unfold mergeStep
  rw [h]

theorem mergeStep_appinfo_some (cache : List Item) (pool : List (List Item))
    (d : DockObject) (name : String) (h : d.appinfo = some name) :
    mergeStep cache pool d = mergeStepName cache pool d name := by
  unfold mergeStep
  rw [h]

theorem mergeStepName_found (cache : List Item) (pool : List (List Item))
    (d : DockObject) (name : String) (s : List Item)
    (pool' : List (List Item)) (hr : removeStack name pool = some (s, pool')) :
    mergeStepName cache pool d name = ({ d with active := s }, pool') := by
  unfold mergeStepName
  rw [hr]

theorem mergeStepName_hit (cache : List Item) (pool : List (List Item))
    (d : DockObject) (name : String) (hr : removeStack name pool = none)
    (hc : cache.any (fun e => e.description == name) = true) :
    mergeStepName cache pool d name = ({ d with active := [] }, pool) := by
  unfold mergeStepName
  rw [hr, if_pos hc]

theorem mergeStepName_miss (cache : List Item) (pool : List (List Item))
    (d : DockObject) (name : String) (hr : removeStack name pool = none)
    (hc : cache.any (fun e => e.description == name) = false) :
    mergeStepName cache pool d name = (d, pool) := by
  unfold mergeStepName
  rw [hr, if_neg (by simp [hc])]

theorem mergeStep_pool_sublist (cache : List Item) (pool : List (List Item))
    (d : DockObject) : (mergeStep cache pool d).2.Sublist pool := by
  cases ha : d.appinfo with
  | none =>
    rw [mergeStep_appinfo_none cache pool d ha]
  | some name =>
    rw [mergeStep_appinfo_some cache pool d name ha]
    cases hr : removeStack name pool with
    | none =>
      cases hc : cache.any (fun e => e.description == name) with
      | true =>
        rw [mergeStepName_hit cache pool d name hr hc]
      | false =>
        rw [mergeStepName_miss cache pool d name hr hc]
    | some pr =>
      obtain ⟨s, pool'⟩ := pr
      rw [mergeStepName_found cache pool d name s pool' hr]
      exact (removeStack_some_spec name pool s pool' hr).2.2.1

theorem mergeFavorites_pool_sublist (cache : List Item)
    (pool : List (List Item)) (saved : List DockObject) :
    (mergeFavorites cache pool saved).2.Sublist pool := by
  induction saved generalizing pool with
  | nil => exact List.Sublist.refl pool
  | cons d rest ih =>
    exact (ih (mergeStep cache pool d).2).trans
      (mergeStep_pool_sublist cache pool d)

theorem mergeFavorites_length (cache : List Item) (pool : List (List Item))
    (saved : List DockObject) :
    (mergeFavorites cache pool saved).1.length = saved.length := by
  induction saved generalizing pool with
  | nil => rfl
  | cons d rest ih =>
    simp only [mergeFavorites, List.length_cons]
    rw [ih]

theorem getD_mem_of_lt (l : List DockObject) (i : Nat) (hi : i < l.length) :
    l.getD i default ∈ l := by
  rw [List.getD_eq_getElem l default hi]
  exact List.getElem_mem hi

theorem appinfo_mem_filterMap (l : List DockObject) (i : Nat)
    (hi : i < l.length) (name : String)
    (hap : (l.getD i default).appinfo = some name) :
    name ∈ l.filterMap DockObject.appinfo :=
  List.mem_filterMap.mpr ⟨l.getD i default, getD_mem_of_lt l i hi, hap⟩

theorem merge_found (cache : List Item) (saved : List DockObject)
    (pool : List (List Item))
    (hp : pool.Pairwise (fun s u => firstDescOpt s ≠ firstDescOpt u))
    (hnd : (saved.filterMap DockObject.appinfo).Nodup)
    (s : List Item) (name : String) (hs : s ∈ pool)
    (hsd : firstDescOpt s = some name)
    (i : Nat) (hi : i < saved.length)
    (hap : (saved.getD i default).appinfo = some name) :
    ((mergeFavorites cache pool saved).1.getD i default).active = s
      ∧ ∀ u ∈ (mergeFavorites cache pool saved).2,
          firstDescOpt u ≠ some name := by
  induction saved generalizing pool i with
  | nil => simp at hi
  | cons f rest ih =>
    cases i with
    | zero =>
      rw [List.getD_cons_zero] at hap
      obtain ⟨pool', hpo⟩ := removeStack_finds name pool hp s hs hsd
      have hstep : mergeStep cache pool f = ({ f with active := s }, pool') := by
        rw [mergeStep_appinfo_some cache pool f name hap,
          mergeStepName_found cache pool f name s pool' hpo]
      constructor
      · simp only [mergeFavorites, hstep, List.getD_cons_zero]
      · intro u hu
        simp only [mergeFavorites, hstep] at hu
        have hsub := mergeFavorites_pool_sublist cache pool' rest
        exact removeStack_key_gone name pool hp s pool' hpo u (hsub.subset hu)
    | succ j =>
      rw [List.getD_cons_succ] at hap
      rw [List.length_cons, Nat.succ_lt_succ_iff] at hi
      have hname : name ∈ rest.filterMap DockObject.appinfo :=
        appinfo_mem_filterMap rest j hi name hap
      cases hfa : f.appinfo with
      | none =>
        have hnd2 : (rest.filterMap DockObject.appinfo).Nodup := by
          rw [List.filterMap_cons, hfa] at hnd
          exact hnd
        have hstep : mergeStep cache pool f = (f, pool) := by
          unfold mergeStep
          rw [hfa]
        simp only [mergeFavorites, hstep, List.getD_cons_succ]
        exact ih pool hp hnd2 hs j hi hap
      | some n2 =>
        have hnd' : n2 ∉ rest.filterMap DockObject.appinfo
            ∧ (rest.filterMap DockObject.appinfo).Nodup := by
          rw [List.filterMap_cons, hfa, List.nodup_cons] at hnd
          exact hnd
        have hne : n2 ≠ name := fun he => hnd'.1 (he ▸ hname)
        cases hr : removeStack n2 pool with
        | none =>
          have hstep2 : (mergeStep cache pool f).2 = pool := by
            rw [mergeStep_appinfo_some cache pool f n2 hfa]
            cases hc : cache.any (fun e => e.description == n2) with
            | true => rw [mergeStepName_hit cache pool f n2 hr hc]
            | false => rw [mergeStepName_miss cache pool f n2 hr hc]
          simp only [mergeFavorites, List.getD_cons_succ, hstep2]
          exact ih pool hp hnd'.2 hs j hi hap
        | some pr =>
          obtain ⟨t, pool'⟩ := pr
          obtain ⟨htd, htm, hts, htall⟩ :=
            removeStack_some_spec n2 pool t pool' hr
          have hstep2 : (mergeStep cache pool f).2 = pool' := by
            rw [mergeStep_appinfo_some cache pool f n2 hfa,
              mergeStepName_found cache pool f n2 t pool' hr]
          have hsne : s ≠ t := by
            intro he
            rw [he, htd] at hsd
            exact hne (Option.some.inj hsd)
          have hs' : s ∈ pool' := by
            rcases htall s hs with he | hm
            · exact absurd he hsne
            · exact hm
          have hp' : pool'.Pairwise
              (fun a u => firstDescOpt a ≠ firstDescOpt u) :=
            hp.sublist hts
          simp only [mergeFavorites, List.getD_cons_succ, hstep2]
          exact ih pool' hp' hnd'.2 hs' j hi hap

theorem merge_unmatched (cache : List Item) (saved : List DockObject)
    (pool : List (List Item))
    (hpn : ∀ s ∈ pool, firstDescOpt s ≠ some name)
    (hcn : ∀ e ∈ cache, e.description ≠ name)
    (i : Nat) (hap : (saved.getD i default).appinfo = some name) :
    (mergeFavorites cache pool saved).1.getD i default
      = saved.getD i default := by
  induction saved generalizing pool i with
  | nil => simp [mergeFavorites]
  | cons f rest ih =>
    cases i with
    | zero =>
      rw [List.getD_cons_zero] at hap
      have hrn : removeStack name pool = none :=
        (removeStack_eq_none_iff name pool).mpr hpn
      have hca : cache.any (fun e => e.description == name) = false := by
        rw [List.any_eq_false]
        intro e he
        simp only [beq_iff_eq]
        exact hcn e he
      have hstep : mergeStep cache pool f = (f, pool) := by
        rw [mergeStep_appinfo_some cache pool f name hap,
          mergeStepName_miss cache pool f name hrn hca]
      simp only [mergeFavorites, hstep, List.getD_cons_zero]
    | succ j =>
      rw [List.getD_cons_succ] at hap
      have hpn' : ∀ s ∈ (mergeStep cache pool f).2,
          firstDescOpt s ≠ some name :=
        fun s hs => hpn s ((mergeStep_pool_sublist cache pool f).subset hs)
      simp only [mergeFavorites, List.getD_cons_succ]
      exact ih (mergeStep cache pool f).2 hpn' j hap

theorem stackActive_pairwise (cache : List Item) :
    (stackActive cache).Pairwise
      (fun s u => firstDescOpt s ≠ firstDescOpt u) := by
  unfold stackActive
  rw [List.pairwise_map]
  exact List.Pairwise.imp_of_mem
    (fun hp hq hlt => by
      rw [(groupByDesc_mem_spec cache _ hp).2.2,
        (groupByDesc_mem_spec cache _ hq).2.2]
      intro hsome
      exact descLt_ne _ _ hlt (Option.some.inj hsome))
    (groupByDesc_sorted cache)

theorem stackActive_key_mem (cache : List Item) (name : String)
    (hk : name ∈ stackKeys (stackActive cache)) :
    cache.filter (fun e => e.description == name) ∈ stackActive cache
      ∧ firstDescOpt (cache.filter (fun e => e.description == name))
          = some name := by
  obtain ⟨s, hs, hsd⟩ := List.mem_filterMap.mp hk
  obtain ⟨p, hp, hps⟩ := List.mem_map.mp hs
  obtain ⟨hfil, hne, hfd⟩ := groupByDesc_mem_spec cache p hp
  have h1 : firstDescOpt s = some p.1 := by rw [← hps]; exact hfd
  have hp1 : p.1 = name := Option.some.inj (h1.symm.trans hsd)
  have hsf : s = cache.filter (fun e => e.description == name) := by
    rw [← hps, hfil, hp1]
  rw [← hsf]
  exact ⟨hs, hsd⟩

theorem stackActive_no_key (cache : List Item) (name : String)
    (hnc : ∀ e ∈ cache, e.description ≠ name) :
    ∀ s ∈ stackActive cache, firstDescOpt s ≠ some name := by
  intro s hs hsd
  obtain ⟨p, hp, hps⟩ := List.mem_map.mp hs
  obtain ⟨hfil, hne, hfd⟩ := groupByDesc_mem_spec cache p hp
  have h1 : firstDescOpt s = some p.1 := by rw [← hps]; exact hfd
  have hp1 : p.1 = name := Option.some.inj (h1.symm.trans hsd)
  cases hc : p.2 with
  | nil => exact hne hc
  | cons a t =>
    have ha : a ∈ cache.filter (fun e => e.description == p.1) := by
      rw [← hfil, hc]
      exact List.mem_cons_self a t
    have h3 := List.mem_filter.mp ha
    exact hnc a h3.1 ((beq_iff_eq.mp h3.2).trans hp1)

theorem stackActive_mem_key (cache : List Item) (s : List Item)
    (hs : s ∈ stackActive cache) (name : String)
    (hsd : firstDescOpt s = some name) :
    s = cache.filter (fun e => e.description == name) := by
  obtain ⟨p, hp, hps⟩ := List.mem_map.mp hs
  obtain ⟨hfil, hne, hfd⟩ := groupByDesc_mem_spec cache p hp
  have h1 : firstDescOpt s = some p.1 := by rw [← hps]; exact hfd
  have hp1 : p.1 = name := Option.some.inj (h1.symm.trans hsd)
  rw [← hps, hfil, hp1]

theorem mergeFavorites_getD_take (cache : List Item)
    (saved : List DockObject) :
    ∀ (pool : List (List Item)) (i : Nat), i < saved.length →
      (mergeFavorites cache pool saved).1.getD i default
          = (mergeStep cache (mergeFavorites cache pool (saved.take i)).2
              (saved.getD i default)).1
        ∧ (mergeFavorites cache pool (saved.take (i + 1))).2
          = (mergeStep cache (mergeFavorites cache pool (saved.take i)).2
              (saved.getD i default)).2 := by
  induction saved with
  | nil => intro pool i hi; simp at hi
  | cons f rest ih =>
    intro pool i hi
    cases i with
    | zero => exact ⟨rfl, rfl⟩
    | succ j =>
      rw [List.length_cons, Nat.succ_lt_succ_iff] at hi
      obtain ⟨ih1, ih2⟩ := ih (mergeStep cache pool f).2 j hi
      constructor
      · simp only [mergeFavorites, List.getD_cons_succ, List.take_succ_cons]
        exact ih1
      · simp only [mergeFavorites, List.getD_cons_succ, List.take_succ_cons]
        exact ih2

theorem merge_key_gone (cache : List Item) (saved : List DockObject) :
    ∀ pool : List (List Item),
      pool.Pairwise (fun s u => firstDescOpt s ≠ firstDescOpt u) →
      ∀ (i : Nat) (name : String), i < saved.length →
        (saved.getD i default).appinfo = some name →
        ∀ u ∈ (mergeFavorites cache pool saved).2,
          firstDescOpt u ≠ some name := by
  induction saved with
  | nil => intro pool _ i name hi; simp at hi
  | cons f rest ih =>
    intro pool hp i name hi hap
    cases i with
    | zero =>
      rw [List.getD_cons_zero] at hap
      cases hr : removeStack name pool with
      | some pr =>
        obtain ⟨t, pool'⟩ := pr
        have hstep : mergeStep cache pool f
            = ({ f with active := t }, pool') := by
          rw [mergeStep_appinfo_some cache pool f name hap,
            mergeStepName_found cache pool f name t pool' hr]
        intro u hu
        simp only [mergeFavorites, hstep] at hu
        exact removeStack_key_gone name pool hp t pool' hr u
          ((mergeFavorites_pool_sublist cache pool' rest).subset hu)
      | none =>
        have hnone := (removeStack_eq_none_iff name pool).mp hr
        have hstep2 : (mergeStep cache pool f).2 = pool := by
          rw [mergeStep_appinfo_some cache pool f name hap]
          cases hc : cache.any (fun e => e.description == name) with
          | true => rw [mergeStepName_hit cache pool f name hr hc]
          | false => rw [mergeStepName_miss cache pool f name hr hc]
        intro u hu
        simp only [mergeFavorites] at hu
        rw [hstep2] at hu
        exact hnone u
          ((mergeFavorites_pool_sublist cache pool rest).subset hu)
    | succ j =>
      rw [List.getD_cons_succ] at hap
      rw [List.length_cons, Nat.succ_lt_succ_iff] at hi
      intro u hu
      simp only [mergeFavorites] at hu
      exact ih (mergeStep cache pool f).2
        (hp.sublist (mergeStep_pool_sublist cache pool f)) j name hi hap u hu

/-- C7.  Favorite merge, characterized per favorite against the running pool
as it stands when that favorite is processed (`poolAt`), with no assumption
on resolved names — display names need not be unique.  When a stack of the
pool carries the favorite's resolved name, the pass stores exactly the
grouped stack — the cache records of that description in encounter order —
in the entry's `"active"` property; when no pool stack matches but some
record of the raw ungrouped cache bears that description (in the code this
arises when an earlier favorite of the same resolved name already captured
the stack), the entry receives an explicit empty stack; the favorite's key
never occurs among the published leftover stacks; and publishing replaces
the previous running view-collection in full with exactly the leftover
stacks. -/
theorem favorite_merge_correct (cache : List Item) (saved : List DockObject)
    (i : Nat) (hi : i < saved.length) (name : String)
    (hap : (saved.getD i default).appinfo = some name) :
    ((∃ s ∈ poolAt cache saved i, firstDescOpt s = some name) →
        ((windowListPass cache saved).1.getD i default).active
          = cache.filter (fun e => e.description == name))
      ∧ ((∀ s ∈ poolAt cache saved i, firstDescOpt s ≠ some name) →
          name ∈ cache.map Item.description →
          ((windowListPass cache saved).1.getD i default).active = [])
      ∧ name ∉ stackKeys (windowListPass cache saved).2
      ∧ ∀ prev : List DockObject,
          publishRunning prev (windowListPass cache saved).2
            = ((windowListPass cache saved).2).map fromSearchResults := by
  obtain ⟨hL1, _⟩ :=
    mergeFavorites_getD_take cache saved (stackActive cache) i hi
  have hpool : (mergeFavorites cache (stackActive cache) (saved.take i)).2
      = poolAt cache saved i := rfl
  refine ⟨?_, ?_, ?_, ?_⟩
  · rintro ⟨s, hs, hsd⟩
    have hsub :=
      mergeFavorites_pool_sublist cache (stackActive cache) (saved.take i)
    have hpair : (poolAt cache saved i).Pairwise
        (fun a u => firstDescOpt a ≠ firstDescOpt u) :=
      (stackActive_pairwise cache).sublist hsub
    have hsf : s = cache.filter (fun e => e.description == name) :=
      stackActive_mem_key cache s (hsub.subset hs) name hsd
    obtain ⟨pool', hpo⟩ :=
      removeStack_finds name (poolAt cache saved i) hpair s hs hsd
    have hstep :
        (mergeStep cache (poolAt cache saved i) (saved.getD i default)).1
          = { saved.getD i default with active := s } := by
      rw [mergeStep_appinfo_some cache (poolAt cache saved i)
          (saved.getD i default) name hap,
        mergeStepName_found cache (poolAt cache saved i)
          (saved.getD i default) name s pool' hpo]
    unfold windowListPass
    rw [hL1, hpool, hstep]
    exact hsf
  · intro hall hmem
    have hrn : removeStack name (poolAt cache saved i) = none :=
      (removeStack_eq_none_iff name (poolAt cache saved i)).mpr hall
    have hca : cache.any (fun e => e.description == name) = true := by
      rw [List.any_eq_true]
      obtain ⟨e, he, hed⟩ := List.mem_map.mp hmem
      exact ⟨e, he, beq_iff_eq.mpr hed⟩
    have hstep :
        (mergeStep cache (poolAt cache saved i) (saved.getD i default)).1
          = { saved.getD i default with active := [] } := by
      rw [mergeStep_appinfo_some cache (poolAt cache saved i)
          (saved.getD i default) name hap,
        mergeStepName_hit cache (poolAt cache saved i)
          (saved.getD i default) name hrn hca]
    unfold windowListPass
    rw [hL1, hpool, hstep]
  · intro hmem2
    obtain ⟨u, hu, hud⟩ := List.mem_filterMap.mp hmem2
    exact merge_key_gone cache saved (stackActive cache)
      (stackActive_pairwise cache) i name hi hap u hu hud
  · intro prev
    unfold publishRunning spliceRange
    simp

/-- C7 (witness).  The first application exercises the matched branch (a
favorite for Firefox captures the two-window Firefox stack, whose key then
no longer occurs among the published stacks); the second exercises the
raw-cache fallback branch (a second favorite with the same resolved name
finds the pool already emptied and receives the explicit empty stack). -/
theorem favorite_merge_correct_witness :
    ((windowListPass [⟨1, "w1", "Firefox"⟩, ⟨2, "w2", "Firefox"⟩]
          [⟨some "Firefox", some "ff", true, []⟩]).1.getD 0 default).active
        = [⟨1, "w1", "Firefox"⟩, ⟨2, "w2", "Firefox"⟩]
      ∧ "Firefox" ∉ stackKeys (windowListPass
          [⟨1, "w1", "Firefox"⟩, ⟨2, "w2", "Firefox"⟩]
          [⟨some "Firefox", some "ff", true, []⟩]).2
      ∧ ((windowListPass [⟨1, "w1", "Firefox"⟩, ⟨2, "w2", "Firefox"⟩]
          [⟨some "Firefox", some "ff", true, []⟩,
           ⟨some "Firefox", some "ff2", true, []⟩]).1.getD 1 default).active
        = [] := by
  have h1 := favorite_merge_correct
    [⟨1, "w1", "Firefox"⟩, ⟨2, "w2", "Firefox"⟩]
    [⟨some "Firefox", some "ff", true, []⟩] 0 (by decide)
    "Firefox" (by decide)
  have h2 := favorite_merge_correct
    [⟨1, "w1", "Firefox"⟩, ⟨2, "w2", "Firefox"⟩]
    [⟨some "Firefox", some "ff", true, []⟩,
     ⟨some "Firefox", some "ff2", true, []⟩] 1 (by decide)
    "Firefox" (by decide)
  refine ⟨(h1.1 ?_).trans (by decide), h1.2.2.1, h2.2.1 (by decide) (by decide)⟩
  exact ⟨[⟨1, "w1", "Firefox"⟩, ⟨2, "w2", "Firefox"⟩], by decide, by decide⟩

/-- C8.  A favorite whose resolved name matches no grouped stack key and no
record of the raw cache is left untouched by the reconciliation pass: with no
prior live stack its `"active"` property remains the explicit empty stack
(the property always exists, with the empty `BoxedWindowList` as default),
and a prior live stack is left exactly as it was. -/
theorem favorite_not_running_unchanged (cache : List Item)
    (saved : List DockObject) (i : Nat) (_hi : i < saved.length)
    (name : String) (hap : (saved.getD i default).appinfo = some name)
    (hnc : ∀ e ∈ cache, e.description ≠ name) :
    (windowListPass cache saved).1.getD i default = saved.getD i default
      ∧ ((saved.getD i default).active = [] →
          ((windowListPass cache saved).1.getD i default).active = []) := by
  have h := merge_unmatched cache saved (stackActive cache)
    (stackActive_no_key cache name hnc) hnc i hap
  exact ⟨h, fun he => by unfold windowListPass; rw [h]; exact he⟩

/-- C8 (witness). -/
theorem favorite_not_running_unchanged_witness :
    (windowListPass [⟨1, "t", "Terminal"⟩]
        [⟨some "Spotify", none, true, []⟩]).1.getD 0 default
      = ⟨some "Spotify", none, true, []⟩ :=
  (favorite_not_running_unchanged [⟨1, "t", "Terminal"⟩]
    [⟨some "Spotify", none, true, []⟩] 0 (by decide) "Spotify" (by decide)
    (by decide)).1.trans (by decide)

/-- C10.  Every stack built by the grouping fold is non-empty and the stacks
carry pairwise distinct description keys; the running pool held during and
after the favorites merge is a sublist of the grouped stacks, so the
`s.0[0]` read performed by the merge comparison is always in bounds. -/
theorem grouped_stacks_nonempty_distinct (cache : List Item) :
    (∀ s ∈ stackActive cache, s ≠ [])
      ∧ (stackActive cache).Pairwise
          (fun s u => firstDescOpt s ≠ firstDescOpt u)
      ∧ ∀ saved : List DockObject,
          ((windowListPass cache saved).2).Sublist (stackActive cache) := by
  refine ⟨?_, stackActive_pairwise cache, ?_⟩
  · intro s hs
    obtain ⟨p, hp, hps⟩ := List.mem_map.mp hs
    exact hps ▸ (groupByDesc_mem_spec cache p hp).2.1
  · intro saved
    exact mergeFavorites_pool_sublist cache (stackActive cache) saved

/-! Facts about the favorite-toggle handler. -/

theorem path_ne_of_mem (l : List DockObject) (name : String)
    (h : ∀ j : Nat, j < l.length → (l.getD j default).path ≠ some name) :
    ∀ u ∈ l, u.path ≠ some name := by
  intro u hu
  obtain ⟨n, hn⟩ := List.mem_iff_get.mp hu
  have h2 := h n.val n.isLt
  rw [List.getD_eq_getElem l default n.isLt, ← List.get_eq_getElem, hn] at h2
  exact h2

theorem lastMatchIdx_none_iff (name : String) (l : List DockObject) :
    lastMatchIdx name l = none ↔ ∀ d ∈ l, d.path ≠ some name := by
  induction l with
  | nil => simp [lastMatchIdx]
  | cons d rest ih =>
    cases hr : lastMatchIdx name rest with
    | some i =>
      have h2 : ¬ ∀ u ∈ rest, u.path ≠ some name := by
        intro hall
        have h3 := ih.mpr hall
        rw [hr] at h3
        exact Option.noConfusion h3
      simp only [lastMatchIdx, hr, List.mem_cons]
      constructor
      · intro hn; exact Option.noConfusion hn
      · intro hn; exact absurd (fun u hu => hn u (Or.inr hu)) h2
    | none =>
      by_cases h : d.path = some name
      · simp only [lastMatchIdx, hr, if_pos h, List.mem_cons]
        constructor
        · intro hn; exact Option.noConfusion hn
        · intro hn; exact absurd h (hn d (Or.inl rfl))
      · simp only [lastMatchIdx, hr, if_neg h, List.mem_cons]
        constructor
        · intro _ u hu
          rcases hu with he | hm
          · exact he ▸ h
          · exact ih.mp hr u hm
        · intro _; trivial

theorem lastMatchIdx_some_spec (name : String) (l : List DockObject) :
    ∀ i : Nat, lastMatchIdx name l = some i →
      i < l.length ∧ (l.getD i default).path = some name := by
  induction l with
  | nil => intro i h; exact Option.noConfusion h
  | cons d rest ih =>
    intro i h
    cases hr : lastMatchIdx name rest with
    | some j =>
      simp only [lastMatchIdx, hr] at h
      obtain ⟨hj, hjp⟩ := ih j hr
      have hij : j + 1 = i := Option.some.inj h
      subst hij
      constructor
      · rw [List.length_cons]; omega
      · rw [List.getD_cons_succ]; exact hjp
    | none =>
      simp only [lastMatchIdx, hr] at h
      by_cases hp : d.path = some name
      · rw [if_pos hp] at h
        have h0 : 0 = i := Option.some.inj h
        subst h0
        exact ⟨by simp, by rw [List.getD_cons_zero]; exact hp⟩
      · rw [if_neg hp] at h
        exact Option.noConfusion h

theorem lastMatchIdx_unique (name : String) (l : List DockObject) :
    ∀ i : Nat, i < l.length → (l.getD i default).path = some name →
      (∀ j : Nat, j < l.length → j ≠ i →
        (l.getD j default).path ≠ some name) →
      lastMatchIdx name l = some i := by
  induction l with
  | nil => intro i hi; simp at hi
  | cons d rest ih =>
    intro i hi hp hothers
    cases i with
    | zero =>
      rw [List.getD_cons_zero] at hp
      have hrest : lastMatchIdx name rest = none := by
        rw [lastMatchIdx_none_iff]
        apply path_ne_of_mem
        intro j hj
        have h2 := hothers (j + 1)
          (by rw [List.length_cons]; omega) (Nat.succ_ne_zero j)
        rwa [List.getD_cons_succ] at h2
      simp only [lastMatchIdx, hrest, if_pos hp]
    | succ j =>
      rw [List.getD_cons_succ] at hp
      rw [List.length_cons, Nat.succ_lt_succ_iff] at hi
      have hrest : lastMatchIdx name rest = some j := by
        apply ih j hi hp
        intro k hk hkj
        have h2 := hothers (k + 1)
          (by rw [List.length_cons]; omega) (by omega)
        rwa [List.getD_cons_succ] at h2
      simp only [lastMatchIdx, hrest]

theorem markMatches_no_match (name : String) (b : Bool)
    (l : List DockObject) (h : ∀ d ∈ l, d.path ≠ some name) :
    markMatches name b l = l := by
  induction l with
  | nil => rfl
  | cons d rest ih =>
    simp only [markMatches, List.map_cons]
    rw [if_neg (h d (List.mem_cons_self d rest))]
    have h2 := ih (fun u hu => h u (List.mem_cons_of_mem d hu))
    simp only [markMatches] at h2
    rw [h2]

theorem markMatches_getD (name : String) (b : Bool) (l : List DockObject)
    (i : Nat) (hi : i < l.length) :
    (markMatches name b l).getD i default
      = if (l.getD i default).path = some name
        then { l.getD i default with saved := b }
        else l.getD i default := by
  induction l generalizing i with
  | nil => simp at hi
  | cons d rest ih =>
    cases i with
    | zero => rfl
    | succ j =>
      rw [List.length_cons, Nat.succ_lt_succ_iff] at hi
      simp only [markMatches, List.map_cons, List.getD_cons_succ]
      exact ih j hi

theorem markMatches_eraseIdx_single (name : String) (b : Bool)
    (l : List DockObject) :
    ∀ i : Nat,
      (∀ j : Nat, j < l.length → j ≠ i →
        (l.getD j default).path ≠ some name) →
      (markMatches name b l).eraseIdx i = l.eraseIdx i := by
  induction l with
  | nil => intro i _; rfl
  | cons d rest ih =>
    intro i h
    cases i with
    | zero =>
      simp only [markMatches, List.map_cons, List.eraseIdx_cons_zero]
      apply markMatches_no_match
      apply path_ne_of_mem
      intro j hj
      have h2 := h (j + 1)
        (by rw [List.length_cons]; omega) (Nat.succ_ne_zero j)
      rwa [List.getD_cons_succ] at h2
    | succ j =>
      simp only [markMatches, List.map_cons, List.eraseIdx_cons_succ]
      have hd : d.path ≠ some name := by
        have h2 := h 0 (by simp) (by omega)
        rwa [List.getD_cons_zero] at h2
      rw [if_neg hd]
      have h3 := ih j (fun k hk hkj => by
        have h4 := h (k + 1) (by rw [List.length_cons]; omega) (by omega)
        rwa [List.getD_cons_succ] at h4)
      simp only [markMatches] at h3
      rw [h3]

/-- C9.  Favorite toggle on one source/destination model pair: when no entry
of the source collection carries the toggled desktop-file path, both
collections are left unmodified (and the follow-up `RefreshFromCache` is
still enqueued, with no panic); when exactly one entry matches, it is
reflagged with the new saved state, removed from the source collection and
appended to the destination collection, and a `RefreshFromCache` event is
enqueued.  Only the source collection is ever searched, by construction of
the handler. -/
theorem favorite_toggle_correct (name : String) (b : Bool)
    (src dst : List DockObject) :
    ((∀ d ∈ src, d.path ≠ some name) →
        favoriteMove name b src dst = (src, dst, [Event.refreshFromCache]))
      ∧ (∀ i : Nat, i < src.length →
          (src.getD i default).path = some name →
          (∀ j : Nat, j < src.length → j ≠ i →
            (src.getD j default).path ≠ some name) →
          favoriteMove name b src dst
            = (src.eraseIdx i,
               dst ++ [{ src.getD i default with saved := b }],
               [Event.refreshFromCache])) := by
  constructor
  · intro h
    simp only [favoriteMove, (lastMatchIdx_none_iff name src).mpr h,
      markMatches_no_match name b src h]
  · intro i hi hp hothers
    simp only [favoriteMove, lastMatchIdx_unique name src i hi hp hothers,
      markMatches_eraseIdx_single name b src i hothers,
      markMatches_getD name b src i hi, if_pos hp]

/-- C9 (witness). -/
theorem favorite_toggle_correct_witness :
    favoriteMove "appx" true [⟨none, some "appx", false, []⟩] []
      = ([], [⟨none, some "appx", true, []⟩], [Event.refreshFromCache]) := by
  have h := (favorite_toggle_correct "appx" true
    [⟨none, some "appx", false, []⟩] []).2 0 (by decide) (by decide)
    (fun j hj hne hcontra => by simp at hj; omega)
  exact h.trans (by decide)

end DockApps
